import Mathlib

/-!
Verification of the Scene Synchronization & Media Fitting Engine
(text2video).  The Python modules `scene_parser.py`,
`subtitle_generator.py`, `music_selector.py` and `visual_selector.py` are
shallowly embedded below: strings become `List Char`, Python floats become
exact rationals, and the fallible parts of the audio pipeline become
`Except`-valued functions.  Theorems at the end settle the specified
properties of these embeddings.
-/

namespace Text2Video

/-- The whitespace class used by Python's `str.split()`, `str.strip()` and
the regex class `\s` (restricted to ASCII, which is all the pipeline
handles): space, tab, newline, carriage return, vertical tab, form feed. -/
def pyIsSpace (c : Char) : Bool :=
  c = ' ' || c = '\t' || c = '\n' || c = '\r' || c = '\x0b' || c = '\x0c'

theorem dropWhile_length_le {α : Type} (p : α → Bool) (l : List α) :
    (l.dropWhile p).length ≤ l.length := by
  induction l with
  | nil => simp
  | cons c rest ih =>
    by_cases h : p c
    · rw [List.dropWhile_cons_of_pos h]
      exact Nat.le_succ_of_le ih
    · rw [List.dropWhile_cons_of_neg h]

/-- Python `text.split()`: maximal runs of non-whitespace characters,
in order; leading/trailing/repeated whitespace produces no empty words. -/
def pySplit (l : List Char) : List (List Char) :=
  match l with
  | [] => []
  | c :: rest =>
    if pyIsSpace c then pySplit rest
    else
      (c :: rest).takeWhile (fun d => !pyIsSpace d) ::
        pySplit ((c :: rest).dropWhile (fun d => !pyIsSpace d))
termination_by l.length
decreasing_by
  · simp
  · simp only [List.dropWhile]
    simp_all only [List.length_cons, Bool.not_eq_eq_eq_not, Bool.not_true]
    simp only [Bool.not_false, if_true]
    exact Nat.lt_succ_of_le (dropWhile_length_le _ rest)

/-- Python `' '.join(ws)`. -/
def joinWords (ws : List (List Char)) : List Char :=
  List.intercalate [' '] ws

/-- The length of the string `' '.join(g)`: word lengths plus one
separator between consecutive words. -/
def lineLen (g : List (List Char)) : Nat :=
  (joinWords g).length

/-- Inner loop of `SubtitleGenerator.split_into_lines`
(subtitle_generator.py lines 99-117).  `cur` is `current_line` (a list of
words), `curLen` is `current_length`. -/
def splitIntoLinesAux (maxChars : Nat) :
    List (List Char) → List (List Char) → Nat → List (List Char)
  | [], cur, _ => if cur.isEmpty then [] else [joinWords cur]
  | w :: rest, cur, curLen =>
    let spaceNeeded := w.length + (if cur.isEmpty then 0 else 1)
    if curLen + spaceNeeded ≤ maxChars then
      splitIntoLinesAux maxChars rest (cur ++ [w]) (curLen + spaceNeeded)
    else
      (if cur.isEmpty then [] else [joinWords cur]) ++
        splitIntoLinesAux maxChars rest [w] w.length

/-- Embeds `SubtitleGenerator.split_into_lines` (subtitle_generator.py lines
75-119): greedy word wrap of `text` at `maxChars` characters per line. -/
def splitIntoLines (maxChars : Nat) (text : List Char) : List (List Char) :=
  splitIntoLinesAux maxChars (pySplit text) [] 0

theorem joinWords_nil : joinWords [] = [] := by
  simp [joinWords, List.intercalate]

theorem joinWords_singleton (w : List Char) : joinWords [w] = w := by
  simp [joinWords, List.intercalate]

theorem joinWords_cons_cons (w v : List Char) (ws : List (List Char)) :
    joinWords (w :: v :: ws) = w ++ ' ' :: joinWords (v :: ws) := by
  simp [joinWords, List.intercalate, List.intersperse_cons_cons]

theorem joinWords_cons_of_ne_nil (w : List Char) {ws : List (List Char)}
    (h : ws ≠ []) : joinWords (w :: ws) = w ++ ' ' :: joinWords ws := by
  cases ws with
  | nil => exact absurd rfl h
  | cons v t => exact joinWords_cons_cons w v t

theorem lineLen_singleton (w : List Char) : lineLen [w] = w.length := by
  simp [lineLen, joinWords_singleton]

theorem lineLen_cons_of_ne_nil (w : List Char) {ws : List (List Char)}
    (h : ws ≠ []) : lineLen (w :: ws) = w.length + 1 + lineLen ws := by
  simp [lineLen, joinWords_cons_of_ne_nil w h]
  omega

/-- Length of the `' '.join` of a nonempty word list: total word length plus one
separator per gap. -/
theorem lineLen_eq_sum {g : List (List Char)} (h : g ≠ []) :
    lineLen g = (g.map List.length).sum + (g.length - 1) := by
  induction g with
  | nil => exact absurd rfl h
  | cons w ws ih =>
    cases ws with
    | nil => simp [lineLen_singleton]
    | cons v t =>
      rw [lineLen_cons_of_ne_nil w (by simp)]
      rw [ih (by simp)]
      simp
      omega

theorem lineLen_append_singleton {g : List (List Char)} (h : g ≠ [])
    (w : List Char) : lineLen (g ++ [w]) = lineLen g + 1 + w.length := by
  rw [lineLen_eq_sum (by simp), lineLen_eq_sum h]
  simp
  cases g with
  | nil => exact absurd rfl h
  | cons _ _ => simp; omega

theorem takeWhile_append_of_all {p : Char → Bool} {l₁ : List Char}
    (h : ∀ c ∈ l₁, p c = true) (l₂ : List Char) :
    (l₁ ++ l₂).takeWhile p = l₁ ++ l₂.takeWhile p := by
  induction l₁ with
  | nil => simp
  | cons c t ih =>
    rw [List.cons_append, List.takeWhile_cons_of_pos (h c (by simp))]
    rw [ih (fun d hd => h d (by simp [hd]))]
    rfl

theorem dropWhile_append_of_all {p : Char → Bool} {l₁ : List Char}
    (h : ∀ c ∈ l₁, p c = true) (l₂ : List Char) :
    (l₁ ++ l₂).dropWhile p = l₂.dropWhile p := by
  induction l₁ with
  | nil => simp
  | cons c t ih =>
    rw [List.cons_append, List.dropWhile_cons_of_pos (h c (by simp))]
    exact ih (fun d hd => h d (by simp [hd]))

theorem pySplit_nil : pySplit [] = [] := by
  rw [pySplit]

theorem pySplit_cons_space {c : Char} (rest : List Char)
    (h : pyIsSpace c = true) : pySplit (c :: rest) = pySplit rest := by
  rw [pySplit, if_pos h]

theorem pySplit_cons_nonspace {c : Char} (rest : List Char)
    (h : pyIsSpace c = false) :
    pySplit (c :: rest) = ((c :: rest).takeWhile (fun d => !pyIsSpace d)) ::
      pySplit ((c :: rest).dropWhile (fun d => !pyIsSpace d)) := by
  rw [pySplit]
  simp [h]

/-- Every word produced by `text.split()` is nonempty and contains no
whitespace character. -/
theorem pySplit_sound (l : List Char) :
    ∀ w ∈ pySplit l, w ≠ [] ∧ ∀ c ∈ w, pyIsSpace c = false := by
  induction l using pySplit.induct with
  | case1 =>
    rw [pySplit_nil]
    intro w hw
    exact absurd hw (List.not_mem_nil w)
  | case2 c rest hsp ih =>
    rw [pySplit_cons_space rest hsp]
    exact ih
  | case3 c rest hsp ih =>
    rw [pySplit_cons_nonspace rest (by simpa using hsp)]
    intro w hw
    rcases List.mem_cons.mp hw with hw | hw
    · subst hw
      constructor
      · rw [List.takeWhile_cons_of_pos (by simpa using hsp)]
        simp
      · intro d hd
        have := List.mem_takeWhile_imp hd
        simpa using this
    · exact ih w hw

/-- Splitting the single-space join of nonempty whitespace-free words
recovers exactly those words. -/
theorem pySplit_joinWords (ws : List (List Char))
    (h : ∀ w ∈ ws, w ≠ [] ∧ ∀ c ∈ w, pyIsSpace c = false) :
    pySplit (joinWords ws) = ws := by
  induction ws with
  | nil => rw [joinWords_nil, pySplit_nil]
  | cons w ws ih =>
    obtain ⟨hne, hnsp⟩ := h w (by simp)
    obtain ⟨c, cs, rfl⟩ := List.exists_cons_of_ne_nil hne
    have hc : pyIsSpace c = false := hnsp c (by simp)
    have hall : ∀ d ∈ c :: cs, (fun d => !pyIsSpace d) d = true := by
      intro d hd
      simp [hnsp d hd]
    cases ws with
    | nil =>
      rw [joinWords_singleton]
      rw [pySplit_cons_nonspace cs hc]
      have ht : (c :: cs).takeWhile (fun d => !pyIsSpace d) = c :: cs := by
        have := takeWhile_append_of_all hall []
        simpa using this
      have hd : (c :: cs).dropWhile (fun d => !pyIsSpace d) = [] := by
        have := dropWhile_append_of_all hall []
        simpa using this
      rw [ht, hd, pySplit_nil]
    | cons v t =>
      rw [joinWords_cons_cons]
      have hjoin : (c :: cs) ++ ' ' :: joinWords (v :: t) =
          c :: (cs ++ ' ' :: joinWords (v :: t)) := by simp
      rw [hjoin, pySplit_cons_nonspace _ hc, ← hjoin]
      have ht : ((c :: cs) ++ ' ' :: joinWords (v :: t)).takeWhile
          (fun d => !pyIsSpace d) = c :: cs := by
        rw [takeWhile_append_of_all hall]
        rw [List.takeWhile_cons_of_neg (by simp [pyIsSpace])]
        simp
      have hd : ((c :: cs) ++ ' ' :: joinWords (v :: t)).dropWhile
          (fun d => !pyIsSpace d) = ' ' :: joinWords (v :: t) := by
        rw [dropWhile_append_of_all hall]
        rw [List.dropWhile_cons_of_neg (by simp [pyIsSpace])]
      rw [ht, hd, pySplit_cons_space _ (by simp [pyIsSpace])]
      rw [ih (fun u hu => h u (by simp [hu]))]

/-- Invariant-carrying characterisation of the greedy line-wrapping loop:
the produced lines are the single-space joins of a partition `gs` of the
remaining words (prefixed by the words already on the current line); every
line is a nonempty group of whole words; any line holding at least two
words fits within `maxChars`; and the first word of each following line
would not have fit on the line before it. -/
theorem splitIntoLinesAux_spec (maxChars : Nat) :
    ∀ (words cur : List (List Char)) (curLen : Nat),
      (cur = [] → curLen = 0) →
      (cur ≠ [] → curLen = lineLen cur) →
      (2 ≤ cur.length → curLen ≤ maxChars) →
      ∃ gs : List (List (List Char)),
        splitIntoLinesAux maxChars words cur curLen = gs.map joinWords ∧
        gs.flatten = cur ++ words ∧
        (∀ g ∈ gs, g ≠ []) ∧
        (∀ g ∈ gs, 2 ≤ g.length → lineLen g ≤ maxChars) ∧
        List.Chain' (fun g₁ g₂ => maxChars < lineLen g₁ + 1 + g₂.headI.length) gs := by
  intro words
  induction words with
  | nil =>
    intro cur curLen h0 h1 h2
    by_cases hc : cur = []
    · subst hc
      exact ⟨[], by rw [splitIntoLinesAux]; simp, by simp, by simp, by simp, by simp⟩
    · refine ⟨[cur], ?_, by simp, by simpa using hc, ?_, List.chain'_singleton cur⟩
      · rw [splitIntoLinesAux]
        simp [hc]
      · intro g hg h2g
        simp only [List.mem_singleton] at hg
        subst hg
        rw [← h1 hc]
        exact h2 h2g
  | cons w rest ih =>
    intro cur curLen h0 h1 h2
    by_cases hfit : curLen + (w.length + (if cur.isEmpty then 0 else 1)) ≤ maxChars
    · have hstep : splitIntoLinesAux maxChars (w :: rest) cur curLen =
          splitIntoLinesAux maxChars rest (cur ++ [w])
            (curLen + (w.length + (if cur.isEmpty then 0 else 1))) := by
        rw [splitIntoLinesAux]
        simp only [if_pos hfit]
      have h1' : cur ++ [w] ≠ [] → curLen + (w.length + (if cur.isEmpty then 0 else 1)) =
          lineLen (cur ++ [w]) := by
        intro _
        by_cases hc : cur = []
        · subst hc
          simp [lineLen_singleton, h0 rfl]
        · rw [lineLen_append_singleton hc w, ← h1 hc]
          simp [hc]
          omega
      obtain ⟨gs, hres, hflat, hne, hlen, hchain⟩ :=
        ih (cur ++ [w]) (curLen + (w.length + (if cur.isEmpty then 0 else 1)))
          (by intro h; simp at h) h1' (fun _ => hfit)
      refine ⟨gs, by rw [hstep]; exact hres, ?_, hne, hlen, hchain⟩
      rw [hflat]
      simp
    · have hstep : splitIntoLinesAux maxChars (w :: rest) cur curLen =
          (if cur.isEmpty then [] else [joinWords cur]) ++
            splitIntoLinesAux maxChars rest [w] w.length := by
        rw [splitIntoLinesAux]
        simp only [if_neg hfit]
      obtain ⟨gs', hres', hflat', hne', hlen', hchain'⟩ :=
        ih [w] w.length (by intro h; simp at h)
          (fun _ => (lineLen_singleton w).symm) (by intro h; simp at h)
      by_cases hc : cur = []
      · subst hc
        refine ⟨gs', ?_, by simpa using hflat', hne', hlen', hchain'⟩
        rw [hstep]
        simpa using hres'
      · refine ⟨cur :: gs', ?_, ?_, ?_, ?_, ?_⟩
        · rw [hstep]
          simp [hc, hres']
        · simp only [List.flatten_cons, hflat']
          simp
        · intro g hg
          rcases List.mem_cons.mp hg with hg | hg
          · subst hg; exact hc
          · exact hne' g hg
        · intro g hg h2g
          rcases List.mem_cons.mp hg with hg | hg
          · subst hg
            rw [← h1 hc]
            exact h2 h2g
          · exact hlen' g hg h2g
        · rw [List.chain'_cons']
          refine ⟨?_, hchain'⟩
          intro g₂ hg₂
          cases gs' with
          | nil => simp at hg₂
          | cons gh gt =>
            simp only [List.head?_cons, Option.mem_some_iff] at hg₂
            subst hg₂
            have hghne : gh ≠ [] := hne' gh (by simp)
            obtain ⟨d, ds, rfl⟩ := List.exists_cons_of_ne_nil hghne
            have hdw : d = w := by
              simp only [List.flatten_cons, List.cons_append] at hflat'
              have := congrArg List.head? hflat'
              simpa using this
            subst hdw
            have hcl : curLen = lineLen cur := h1 hc
            simp only [List.isEmpty_eq_true] at hfit
            simp [hc] at hfit
            simp only [List.headI]
            omega

theorem flatten_ne_nil {gs : List (List (List Char))} (hgs : gs ≠ [])
    (h : ∀ g ∈ gs, g ≠ []) : gs.flatten ≠ [] := by
  cases gs with
  | nil => exact absurd rfl hgs
  | cons g gt =>
    have hg := h g (by simp)
    obtain ⟨d, ds, rfl⟩ := List.exists_cons_of_ne_nil hg
    simp

theorem joinWords_append {xs ys : List (List Char)} (hx : xs ≠ [])
    (hy : ys ≠ []) :
    joinWords (xs ++ ys) = joinWords xs ++ ' ' :: joinWords ys := by
  induction xs with
  | nil => exact absurd rfl hx
  | cons x xt ih =>
    cases xt with
    | nil =>
      rw [List.singleton_append, joinWords_cons_of_ne_nil x hy,
        joinWords_singleton]
    | cons v t =>
      rw [List.cons_append, joinWords_cons_of_ne_nil x (by simp),
        joinWords_cons_cons, ih (by simp)]
      simp

/-- Joining whole lines with single spaces equals joining their underlying
words with single spaces, provided no line is an empty group. -/
theorem joinWords_map_joinWords {gs : List (List (List Char))}
    (h : ∀ g ∈ gs, g ≠ []) :
    joinWords (gs.map joinWords) = joinWords gs.flatten := by
  induction gs with
  | nil => simp
  | cons g gt ih =>
    cases gt with
    | nil => simp [joinWords_singleton]
    | cons g₂ t =>
      have hflat : (g₂ :: t).flatten ≠ [] :=
        flatten_ne_nil (by simp) (fun u hu => h u (by simp [hu]))
      rw [List.map_cons, joinWords_cons_of_ne_nil _ (by simp),
        ih (fun u hu => h u (by simp [hu]))]
      conv_rhs => rw [List.flatten_cons]
      rw [joinWords_append (h g (by simp)) hflat]

/-- C10: joining the lines produced by `split_into_lines` with single
spaces yields exactly `' '.join` of the input's words — wrapping loses,
duplicates, reorders and alters no word. -/
theorem c10_wrap_preserves_words (maxChars : Nat) (text : List Char) :
    joinWords (splitIntoLines maxChars text) = joinWords (pySplit text) := by
  obtain ⟨gs, hres, hflat, hne, -, -⟩ :=
    splitIntoLinesAux_spec maxChars (pySplit text) [] 0 (fun _ => rfl)
      (fun h => absurd rfl h) (by intro h; simp at h)
  rw [splitIntoLines, hres, joinWords_map_joinWords hne, hflat]
  simp

/-- C7: `split_into_lines` is a greedy word wrap.  The produced lines are
the single-space joins of a partition `gs` of the whitespace-delimited
words; every line is nonempty; a line holding two or more words fits
within `maxChars` (so a word was appended exactly when
`currentLength + 1 + wordLength ≤ maxChars`); the first word of each
subsequent line would not have fit on the line before it (greediness); and
a word longer than `maxChars` stands alone on its line, never split. -/
theorem c7_greedy_line_wrap (maxChars : Nat) (text : List Char) :
    ∃ gs : List (List (List Char)),
      splitIntoLines maxChars text = gs.map joinWords ∧
      gs.flatten = pySplit text ∧
      (∀ g ∈ gs, g ≠ []) ∧
      (∀ g ∈ gs, 2 ≤ g.length → lineLen g ≤ maxChars) ∧
      List.Chain' (fun g₁ g₂ => maxChars < lineLen g₁ + 1 + g₂.headI.length) gs ∧
      (∀ g ∈ gs, ∀ w ∈ g, maxChars < w.length → g = [w]) := by
  obtain ⟨gs, hres, hflat, hne, hlen, hchain⟩ :=
    splitIntoLinesAux_spec maxChars (pySplit text) [] 0 (fun _ => rfl)
      (fun h => absurd rfl h) (by intro h; simp at h)
  refine ⟨gs, by rw [splitIntoLines]; exact hres, by simpa using hflat,
    hne, hlen, hchain, ?_⟩
  intro g hg w hw hlong
  have hgne := hne g hg
  by_cases h2 : 2 ≤ g.length
  · exfalso
    have hfit := hlen g hg h2
    have hmem : w.length ∈ g.map List.length := List.mem_map_of_mem _ hw
    have hle : w.length ≤ (g.map List.length).sum :=
      List.single_le_sum (fun x _ => Nat.zero_le x) _ hmem
    rw [lineLen_eq_sum hgne] at hfit
    omega
  · cases g with
    | nil => exact absurd rfl hgne
    | cons a t =>
      cases t with
      | nil =>
        simp only [List.mem_singleton] at hw
        subst hw
        rfl
      | cons b t' => simp at h2

/-- A subtitle timing triple `(start_time, end_time, subtitle_text)` as
produced by `SubtitleGenerator.calculate_timings`.  Python floats are
embedded as exact rationals. -/
structure Cue where
  start : ℚ
  stop : ℚ
  line : List Char
deriving DecidableEq, Inhabited

/-- The timing loop of `calculate_timings` (subtitle_generator.py lines
153-165): each line spans `wordsInLine * timePerWord` seconds starting at
the running `currentTime`. -/
def calcTimingsAux (timePerWord : ℚ) : List (List Char) → ℚ → List Cue
  | [], _ => []
  | l :: rest, currentTime =>
    let wordsInLine : ℚ := ((pySplit l).length : ℚ)
    let lineDuration := wordsInLine * timePerWord
    { start := currentTime, stop := currentTime + lineDuration, line := l } ::
      calcTimingsAux timePerWord rest (currentTime + lineDuration)

/-- Total word count over the wrapped lines, as `calculate_timings`
computes it (subtitle_generator.py line 144):
`sum(len(line.split()) for line in lines)`. -/
def totalWordsOf (maxChars : Nat) (text : List Char) : Nat :=
  ((splitIntoLines maxChars text).map (fun l => (pySplit l).length)).sum

/-- Embeds `SubtitleGenerator.calculate_timings` (subtitle_generator.py lines
121-167). -/
def calculateTimings (maxChars : Nat) (text : List Char) (duration : ℚ) :
    List Cue :=
  let lines := splitIntoLines maxChars text
  if lines.isEmpty then []
  else
    let totalWords := totalWordsOf maxChars text
    if totalWords = 0 then []
    else
      let timePerWord := duration / (totalWords : ℚ)
      calcTimingsAux timePerWord lines 0

theorem calcTimingsAux_ne_nil (tpw : ℚ) {lines : List (List Char)}
    (h : lines ≠ []) (t : ℚ) : calcTimingsAux tpw lines t ≠ [] := by
  cases lines with
  | nil => exact absurd rfl h
  | cons l rest => simp [calcTimingsAux]

theorem calcTimingsAux_headI_start (tpw : ℚ) (l : List Char)
    (rest : List (List Char)) (t : ℚ) :
    (calcTimingsAux tpw (l :: rest) t).headI.start = t := by
  simp [calcTimingsAux]

theorem calcTimingsAux_chain (tpw : ℚ) :
    ∀ (lines : List (List Char)) (t : ℚ),
      List.Chain' (fun a b => a.stop = b.start) (calcTimingsAux tpw lines t) := by
  intro lines
  induction lines with
  | nil => intro t; simp [calcTimingsAux]
  | cons l rest ih =>
    intro t
    rw [calcTimingsAux, List.chain'_cons']
    refine ⟨?_, ih _⟩
    intro b hb
    cases rest with
    | nil => simp [calcTimingsAux] at hb
    | cons l₂ rest₂ =>
      simp only [calcTimingsAux, List.head?_cons, Option.mem_some_iff] at hb
      subst hb
      rfl

theorem calcTimingsAux_mem_duration (tpw : ℚ) :
    ∀ (lines : List (List Char)) (t : ℚ), ∀ cue ∈ calcTimingsAux tpw lines t,
      cue.stop - cue.start = ((pySplit cue.line).length : ℚ) * tpw := by
  intro lines
  induction lines with
  | nil => intro t cue hcue; simp [calcTimingsAux] at hcue
  | cons l rest ih =>
    intro t cue hcue
    rw [calcTimingsAux] at hcue
    rcases List.mem_cons.mp hcue with hcue | hcue
    · subst hcue
      simp
    · exact ih _ cue hcue

theorem getLast?_cons_ne_nil {α : Type} (a : α) {l : List α} (h : l ≠ []) :
    (a :: l).getLast? = l.getLast? := by
  cases l with
  | nil => exact absurd rfl h
  | cons b t => exact List.getLast?_cons_cons

theorem calcTimingsAux_last_stop (tpw : ℚ) :
    ∀ (lines : List (List Char)) (t : ℚ), lines ≠ [] →
      (calcTimingsAux tpw lines t).getLast?.map Cue.stop =
        some (t + (lines.map (fun l => ((pySplit l).length : ℚ))).sum * tpw) := by
  intro lines
  induction lines with
  | nil => intro t h; exact absurd rfl h
  | cons l rest ih =>
    intro t _
    cases rest with
    | nil =>
      simp [calcTimingsAux]
    | cons l₂ rest₂ =>
      rw [calcTimingsAux]
      rw [getLast?_cons_ne_nil _ (calcTimingsAux_ne_nil tpw (by simp) _)]
      rw [ih _ (by simp)]
      congr 1
      simp only [List.map_cons, List.sum_cons]
      ring

/-- Each produced line splits back into exactly its group of words, and
therefore contains at least one word. -/
theorem splitIntoLines_split_back (maxChars : Nat) (text : List Char) :
    ∃ gs : List (List (List Char)),
      splitIntoLines maxChars text = gs.map joinWords ∧
      gs.flatten = pySplit text ∧ (∀ g ∈ gs, g ≠ []) ∧
      ∀ g ∈ gs, pySplit (joinWords g) = g := by
  obtain ⟨gs, hres, hflat, hne, -, -, -⟩ := c7_greedy_line_wrap maxChars text
  refine ⟨gs, hres, hflat, hne, ?_⟩
  intro g hg
  refine pySplit_joinWords g ?_
  intro w hw
  have hwmem : w ∈ gs.flatten := by
    rw [List.mem_flatten]
    exact ⟨g, hg, hw⟩
  rw [hflat] at hwmem
  exact pySplit_sound text w hwmem

/-- C1: for a text with at least one word and any positive duration, the
cue sequence of `calculate_timings` starts at 0, is contiguous (each cue's
end is the next cue's start), gives each line a duration of its word count
times the once-computed `timePerWord = duration / totalWords`, and ends
exactly at `duration` (exact rational arithmetic). -/
theorem c1_cue_contiguity_coverage (maxChars : Nat) (text : List Char)
    (d : ℚ) (hw : pySplit text ≠ []) (_hd : 0 < d) :
    calculateTimings maxChars text d ≠ [] ∧
    (calculateTimings maxChars text d).headI.start = 0 ∧
    List.Chain' (fun a b => a.stop = b.start) (calculateTimings maxChars text d) ∧
    (∀ cue ∈ calculateTimings maxChars text d,
      cue.stop - cue.start =
        ((pySplit cue.line).length : ℚ) * (d / (totalWordsOf maxChars text : ℚ))) ∧
    (calculateTimings maxChars text d).getLast?.map Cue.stop = some d := by
  obtain ⟨gs, hres, hflat, hne, hback⟩ := splitIntoLines_split_back maxChars text
  have hgs : gs ≠ [] := by
    intro h
    subst h
    simp at hflat
    exact hw hflat
  have hlines : splitIntoLines maxChars text ≠ [] := by
    rw [hres]
    simpa using hgs
  have hwc : ∀ l ∈ splitIntoLines maxChars text, (pySplit l).length ≠ 0 := by
    intro l hl
    rw [hres] at hl
    obtain ⟨g, hg, rfl⟩ := List.mem_map.mp hl
    rw [hback g hg]
    simpa using hne g hg
  have htw : totalWordsOf maxChars text ≠ 0 := by
    rw [totalWordsOf]
    intro h
    rw [List.sum_eq_zero_iff] at h
    obtain ⟨l, hl⟩ := List.exists_mem_of_ne_nil _ hlines
    exact hwc l hl (h _ (List.mem_map_of_mem _ hl))
  have hcalc : calculateTimings maxChars text d =
      calcTimingsAux (d / (totalWordsOf maxChars text : ℚ))
        (splitIntoLines maxChars text) 0 := by
    rw [calculateTimings]
    simp only [List.isEmpty_eq_true, if_neg hlines, if_neg htw]
  set tpw := d / (totalWordsOf maxChars text : ℚ) with htpw
  refine ⟨?_, ?_, ?_, ?_, ?_⟩
  · rw [hcalc]
    exact calcTimingsAux_ne_nil tpw hlines 0
  · rw [hcalc]
    obtain ⟨l, rest, hlr⟩ := List.exists_cons_of_ne_nil hlines
    rw [hlr]
    exact calcTimingsAux_headI_start tpw l rest 0
  · rw [hcalc]
    exact calcTimingsAux_chain tpw _ 0
  · rw [hcalc]
    exact calcTimingsAux_mem_duration tpw _ 0
  · rw [hcalc, calcTimingsAux_last_stop tpw _ 0 hlines]
    congr 1
    have hsum : ((splitIntoLines maxChars text).map
        (fun l => ((pySplit l).length : ℚ))).sum =
        ((totalWordsOf maxChars text : ℕ) : ℚ) := by
      rw [totalWordsOf, Nat.cast_list_sum, List.map_map]
      rfl
    rw [hsum, htpw]
    rw [mul_div_cancel₀ d (by exact_mod_cast htw)]
    ring

/-- C8: for empty or whitespace-only text, `calculate_timings` returns the
empty cue sequence for every duration — the zero-word case short-circuits
to `[]` before any division happens. -/
theorem c8_empty_text_empty_cues (maxChars : Nat) (text : List Char)
    (d : ℚ) (h : ∀ c ∈ text, pyIsSpace c = true) :
    calculateTimings maxChars text d = [] := by
  have hsplit : pySplit text = [] := by
    induction text with
    | nil => exact pySplit_nil
    | cons c rest ih =>
      rw [pySplit_cons_space rest (h c (by simp))]
      exact ih (fun u hu => h u (by simp [hu]))
  have hlines : splitIntoLines maxChars text = [] := by
    rw [splitIntoLines, hsplit, splitIntoLinesAux]
    simp
  rw [calculateTimings]
  simp [hlines]

/-- Witness for C1 at the concrete text `"One two"` with duration 6. -/
theorem c1_cue_contiguity_coverage_witness :
    pySplit ['O', 'n', 'e', ' ', 't', 'w', 'o'] ≠ [] ∧ (0 : ℚ) < 6 ∧
    (calculateTimings 40 ['O', 'n', 'e', ' ', 't', 'w', 'o'] 6 ≠ [] ∧
      (calculateTimings 40 ['O', 'n', 'e', ' ', 't', 'w', 'o'] 6).headI.start = 0 ∧
      List.Chain' (fun a b => a.stop = b.start)
        (calculateTimings 40 ['O', 'n', 'e', ' ', 't', 'w', 'o'] 6) ∧
      (∀ cue ∈ calculateTimings 40 ['O', 'n', 'e', ' ', 't', 'w', 'o'] 6,
        cue.stop - cue.start = ((pySplit cue.line).length : ℚ) *
          (6 / (totalWordsOf 40 ['O', 'n', 'e', ' ', 't', 'w', 'o'] : ℚ))) ∧
      (calculateTimings 40 ['O', 'n', 'e', ' ', 't', 'w', 'o'] 6).getLast?.map
        Cue.stop = some 6) := by
  have h1 : pySplit ['O', 'n', 'e', ' ', 't', 'w', 'o'] ≠ [] := by
    simp [pySplit, pyIsSpace]
  have h2 : (0 : ℚ) < 6 := by norm_num
  exact ⟨h1, h2, c1_cue_contiguity_coverage 40 _ 6 h1 h2⟩

/-- Witness for C8 at the whitespace-only text `" \n"` with duration 5. -/
theorem c8_empty_text_empty_cues_witness :
    (∀ c ∈ [' ', '\n'], pyIsSpace c = true) ∧
    calculateTimings 40 [' ', '\n'] 5 = [] :=
  ⟨by decide, c8_empty_text_empty_cues 40 [' ', '\n'] 5 (by decide)⟩

/-- Python `str.strip()`: drop leading and trailing whitespace. -/
def pyStrip (l : List Char) : List Char :=
  ((l.dropWhile pyIsSpace).reverse.dropWhile pyIsSpace).reverse

/-- Python `re.sub(r'\s+', ' ', text)`: replace every maximal whitespace run by a
single space (scene_parser.py line 112). -/
def collapseWs (l : List Char) : List Char :=
  match l with
  | [] => []
  | c :: rest =>
    if pyIsSpace c then ' ' :: collapseWs (rest.dropWhile pyIsSpace)
    else c :: collapseWs rest
termination_by l.length
decreasing_by
  · exact Nat.lt_succ_of_le (dropWhile_length_le _ rest)
  · simp

/-- Embeds `SceneParser.clean_text` (scene_parser.py lines 101-117): collapse
whitespace runs to single spaces, then strip. -/
def cleanText (text : List Char) : List Char :=
  pyStrip (collapseWs text)

/-- Helper for the regex `\n\s*\n`: given the characters after an initial
`'\n'`, the number of characters the greedy `\s*\n` consumes — the
position of the last `'\n'` inside the leading whitespace run, if any. -/
def lastNlInRun : List Char → Option Nat
  | [] => none
  | c :: rest =>
    if pyIsSpace c then
      match lastNlInRun rest with
      | some k => some (k + 1)
      | none => if c = '\n' then some 1 else none
    else none

/-- Python `re.split(r'\n\s*\n', text)` (scene_parser.py line 94): leftmost
non-overlapping matches of a newline, greedy whitespace, then a newline;
the pieces between matches are returned.  `cur` accumulates the current
piece in reverse. -/
def splitSepGo (cur : List Char) (l : List Char) : List (List Char) :=
  match l with
  | [] => [cur.reverse]
  | c :: rest =>
    if c = '\n' then
      match lastNlInRun rest with
      | some k => cur.reverse :: splitSepGo [] (rest.drop k)
      | none => splitSepGo (c :: cur) rest
    else splitSepGo (c :: cur) rest
termination_by l.length
decreasing_by
  · refine Nat.lt_succ_of_le ?_
    rw [List.length_drop]
    omega
  · simp
  · simp

/-- The paragraph split of `SceneParser.split_into_scenes`:
`re.split(r'\n\s*\n', text)`. -/
def splitSep (text : List Char) : List (List Char) :=
  splitSepGo [] text

/-- Embeds `SceneParser.split_into_scenes` (scene_parser.py lines 83-99): regex
split on blank separators, then `[s.strip() for s in scenes if s.strip()]`. -/
def splitIntoScenes (text : List Char) : List (List Char) :=
  ((splitSep text).map pyStrip).filter (fun s => !s.isEmpty)

/-- The `Scene` dataclass, restricted to the fields segmentation sets
(scene_parser.py lines 12-32). -/
structure Scene where
  id : Nat
  text : List Char
deriving DecidableEq

/-- The scene-building loop of `SceneParser.parse` (scene_parser.py lines
74-79): `enumerate(scene_texts, start=1)`, keeping a scene only when its
cleaned text is non-empty; the index advances either way. -/
def buildScenes (idx : Nat) : List (List Char) → List Scene
  | [] => []
  | t :: rest =>
    let cleaned := cleanText t
    if cleaned.isEmpty then buildScenes (idx + 1) rest
    else { id := idx, text := cleaned } :: buildScenes (idx + 1) rest

/-- Embeds `SceneParser.parse` after the file read (scene_parser.py lines 70-81),
as a function of the file's content. -/
def parseScenes (content : List Char) : List Scene :=
  buildScenes 1 (splitIntoScenes content)

theorem mem_dropWhile_of_neg {p : Char → Bool} {c : Char} :
    ∀ {l : List Char}, c ∈ l → p c = false → c ∈ l.dropWhile p := by
  intro l
  induction l with
  | nil => intro h _; simp at h
  | cons a t ih =>
    intro hmem hc
    by_cases ha : p a
    · rw [List.dropWhile_cons_of_pos ha]
      rcases List.mem_cons.mp hmem with h | h
      · subst h
        rw [hc] at ha
        exact absurd ha (by simp)
      · exact ih h hc
    · rw [List.dropWhile_cons_of_neg ha]
      exact hmem

theorem dropWhile_head_false {p : Char → Bool} {c : Char} {t : List Char} :
    ∀ {l : List Char}, l.dropWhile p = c :: t → p c = false := by
  intro l
  induction l with
  | nil => intro h; simp at h
  | cons a u ih =>
    intro h
    by_cases ha : p a
    · rw [List.dropWhile_cons_of_pos ha] at h
      exact ih h
    · rw [List.dropWhile_cons_of_neg ha] at h
      obtain ⟨rfl, -⟩ := List.cons.inj h
      simpa using ha

/-- A non-whitespace character survives whitespace collapsing. -/
theorem collapseWs_mem_nonspace :
    ∀ (t : List Char), ∀ c ∈ t, pyIsSpace c = false → c ∈ collapseWs t := by
  intro t
  induction t using collapseWs.induct with
  | case1 => intro c hc; simp at hc
  | case2 a rest ha ih =>
    intro c hc hcns
    rw [collapseWs, if_pos ha]
    rcases List.mem_cons.mp hc with h | h
    · subst h
      rw [ha] at hcns
      simp at hcns
    · exact List.mem_cons_of_mem _ (ih c (mem_dropWhile_of_neg h hcns) hcns)
  | case3 a rest ha ih =>
    intro c hc hcns
    rw [collapseWs, if_neg ha]
    rcases List.mem_cons.mp hc with h | h
    · subst h
      simp
    · exact List.mem_cons_of_mem _ (ih c h hcns)

/-- A list holding a non-whitespace character strips to a nonempty list. -/
theorem pyStrip_ne_nil_of_mem {c : Char} {l : List Char} (hmem : c ∈ l)
    (hns : pyIsSpace c = false) : pyStrip l ≠ [] := by
  rw [pyStrip]
  intro h
  rw [List.reverse_eq_nil_iff] at h
  have h1 : c ∈ l.dropWhile pyIsSpace := mem_dropWhile_of_neg hmem hns
  have h2 : c ∈ (l.dropWhile pyIsSpace).reverse := by simpa using h1
  have h3 : c ∈ (l.dropWhile pyIsSpace).reverse.dropWhile pyIsSpace :=
    mem_dropWhile_of_neg h2 hns
  rw [h] at h3
  simp at h3

/-- A nonempty strip result contains a non-whitespace character. -/
theorem pyStrip_has_nonspace {s : List Char} (h : pyStrip s ≠ []) :
    ∃ c ∈ pyStrip s, pyIsSpace c = false := by
  rw [pyStrip] at h ⊢
  obtain ⟨c, t, hct⟩ :=
    List.exists_cons_of_ne_nil (by simpa using h :
      (s.dropWhile pyIsSpace).reverse.dropWhile pyIsSpace ≠ [])
  refine ⟨c, ?_, dropWhile_head_false hct⟩
  rw [hct]
  simp

/-- With no discarded entry, the enumeration loop assigns the ids
`idx, idx+1, ...` in order. -/
theorem buildScenes_ids :
    ∀ (ts : List (List Char)), (∀ t ∈ ts, cleanText t ≠ []) → ∀ idx : Nat,
      (buildScenes idx ts).map Scene.id = List.range' idx ts.length := by
  intro ts
  induction ts with
  | nil => intro _ idx; simp [buildScenes]
  | cons t rest ih =>
    intro h idx
    rw [buildScenes]
    have hne : (cleanText t).isEmpty = false := by
      simpa using h t (by simp)
    simp only [hne, Bool.false_eq_true, if_false, List.map_cons]
    rw [ih (fun u hu => h u (by simp [hu])) (idx + 1)]
    simp [List.range'_succ]

/-- C6: scene ids produced by `parse` are exactly `1..N` in order with no
gaps, `N` being the number of kept scenes.  Blank paragraphs are discarded
by `split_into_scenes` before enumeration, so no discarded paragraph
consumes an id: every enumerated candidate has nonempty cleaned text and
is kept. -/
theorem c6_sequential_scene_ids (content : List Char) :
    (parseScenes content).map Scene.id =
      List.range' 1 (parseScenes content).length := by
  have hkept : ∀ t ∈ splitIntoScenes content, cleanText t ≠ [] := by
    intro t ht
    rw [splitIntoScenes] at ht
    have htne : t ≠ [] := by
      have := List.of_mem_filter ht
      simpa using this
    have htmem := List.mem_of_mem_filter ht
    obtain ⟨s, -, rfl⟩ := List.mem_map.mp htmem
    obtain ⟨c, hc, hcns⟩ := pyStrip_has_nonspace htne
    exact pyStrip_ne_nil_of_mem (collapseWs_mem_nonspace _ c hc hcns) hcns
  have hlen : (parseScenes content).length = (splitIntoScenes content).length := by
    have := congrArg List.length (buildScenes_ids (splitIntoScenes content) hkept 1)
    simpa [parseScenes] using this
  rw [parseScenes, buildScenes_ids (splitIntoScenes content) hkept 1]
  rw [parseScenes] at hlen
  rw [hlen]

/-- The Python exception classes the audio pipeline can surface.
`ValueError` is the spec's `InvalidArgument`; exceptions raised inside a
`try` block are re-wrapped by the `except Exception` clauses into
`RuntimeError`. -/
inductive PyErr where
  | valueError
  | runtimeError
deriving DecidableEq

/-- The three ways `adjust_duration` reconciles durations; `loop` carries
`loops_needed = (target // source) + 1`. -/
inductive FitOp where
  | trim
  | loop (repeatCount : ℤ)
  | identity
deriving DecidableEq

/-- The duration-fitting core of `MusicSelector.adjust_duration`
(music_selector.py lines 129-142), over the millisecond durations:
`sourceMs = len(music)` (a pydub length, hence `≥ 0`) and
`targetMs = int(target_duration * 1000)`.  There is no validation of
either argument; a zero source reaching the loop branch raises
`ZeroDivisionError` in `target_ms // original_ms`, which the enclosing
`except Exception` (line 161) re-raises as `RuntimeError`.  Python's `//`
is floor division, embedded as `Int.fdiv`. -/
def adjustDurationFit (sourceMs targetMs : ℤ) : Except PyErr FitOp :=
  if targetMs < sourceMs then .ok .trim
  else if sourceMs < targetMs then
    if sourceMs = 0 then .error .runtimeError
    else .ok (.loop (Int.fdiv targetMs sourceMs + 1))
  else .ok .identity

/-- The inlined duration-fitting step of `MusicSelector.mix_with_voice`
(music_selector.py lines 344-353), with `target = voiceMs` and
`source = musicMs`; same decision logic as `adjust_duration`, including
the wrapped `ZeroDivisionError` for an empty music segment. -/
def mixFitStep (voiceMs musicMs : ℤ) : Except PyErr FitOp :=
  if voiceMs < musicMs then .ok .trim
  else if musicMs < voiceMs then
    if musicMs = 0 then .error .runtimeError
    else .ok (.loop (Int.fdiv voiceMs musicMs + 1))
  else .ok .identity

/-- The gain applied to the music before overlaying.  `db v` stands for
the finite value `20 * log10(v)` computed for a positive volume `v`;
`sentinelDb` is the fixed `-100` dB used for volume `0`. -/
inductive Gain where
  | sentinelDb
  | db (volume : ℚ)
deriving DecidableEq

/-- The volume-conversion core of `MusicSelector.adjust_volume`
(music_selector.py lines 253-274): the range check
`not 0.0 <= volume_level <= 1.0` raises `ValueError`, volume `0` maps to
the `-100` dB sentinel, and a positive volume maps to `20 * log10`. -/
def adjustVolumeGain (volumeLevel : ℚ) : Except PyErr Gain :=
  if ¬(0 ≤ volumeLevel ∧ volumeLevel ≤ 1) then .error .valueError
  else if volumeLevel = 0 then .ok .sentinelDb
  else .ok (.db volumeLevel)

/-- The mixing plan `mix_with_voice` assembles before exporting. -/
structure MixPlan where
  fit : FitOp
  gain : Gain
deriving DecidableEq

/-- The planning core of `MusicSelector.mix_with_voice` (music_selector.py
lines 331-370): fit the music to the voice duration, then convert the
volume.  There is no range validation of `music_volume`; `music_volume == 0`
takes the sentinel, and a negative volume makes `math.log10` raise a
`ValueError` (math domain error) that the `except Exception` clause
(line 389) re-raises as `RuntimeError`. -/
def mixWithVoicePlan (voiceMs musicMs : ℤ) (musicVolume : ℚ) :
    Except PyErr MixPlan :=
  match mixFitStep voiceMs musicMs with
  | .error e => .error e
  | .ok fit =>
    if musicVolume = 0 then .ok { fit := fit, gain := .sentinelDb }
    else if musicVolume < 0 then .error .runtimeError
    else .ok { fit := fit, gain := .db musicVolume }

/-- C2: for positive source and target, both duration fitters choose Trim
exactly when source > target, Loop exactly when source < target (with
`repeatCount = floor(target / source) + 1`, which covers the target:
`repeatCount * source ≥ target`), and Identity exactly on equality. -/
theorem c2_fit_decision (s t : ℤ) (hs : 0 < s) (ht : 0 < t) :
    (t < s → adjustDurationFit s t = .ok .trim ∧
      mixFitStep t s = .ok .trim) ∧
    (s < t → (adjustDurationFit s t = .ok (.loop (Int.fdiv t s + 1)) ∧
      mixFitStep t s = .ok (.loop (Int.fdiv t s + 1))) ∧
      t ≤ (Int.fdiv t s + 1) * s) ∧
    (s = t → adjustDurationFit s t = .ok .identity ∧
      mixFitStep t s = .ok .identity) := by
  refine ⟨?_, ?_, ?_⟩
  · intro h
    rw [adjustDurationFit, if_pos h, mixFitStep, if_pos h]
    exact ⟨rfl, rfl⟩
  · intro h
    have hns : ¬t < s := not_lt.mpr h.le
    have hsne : s ≠ 0 := hs.ne'
    refine ⟨?_, ?_⟩
    · rw [adjustDurationFit, if_neg hns, if_pos h, if_neg hsne,
        mixFitStep, if_neg hns, if_pos h, if_neg hsne]
      exact ⟨rfl, rfl⟩
    · rw [Int.fdiv_eq_ediv t hs.le]
      exact (Int.lt_ediv_add_one_mul_self t hs).le
  · intro h
    subst h
    rw [adjustDurationFit, mixFitStep]
    simp

/-- Witness for C2 at the spec's scenario `fit(2000, 7000)`:
Loop with `repeatCount = floor(7000/2000)+1 = 4` and `4 * 2000 ≥ 7000`. -/
theorem c2_fit_decision_witness :
    ((2000 : ℤ) < 7000 →
      (adjustDurationFit 2000 7000 = .ok (.loop (Int.fdiv 7000 2000 + 1)) ∧
        mixFitStep 7000 2000 = .ok (.loop (Int.fdiv 7000 2000 + 1))) ∧
      (7000 : ℤ) ≤ (Int.fdiv 7000 2000 + 1) * 2000) ∧
    adjustDurationFit 2000 7000 = .ok (.loop 4) := by
  refine ⟨(c2_fit_decision 2000 7000 (by norm_num) (by norm_num)).2.1, ?_⟩
  rw [adjustDurationFit]
  norm_num
  decide

theorem mixWithVoicePlan_error {voiceMs musicMs : ℤ} {e : PyErr}
    (h : mixFitStep voiceMs musicMs = .error e) (v : ℚ) :
    mixWithVoicePlan voiceMs musicMs v = .error e := by
  rw [mixWithVoicePlan, h]

theorem mixWithVoicePlan_ok {voiceMs musicMs : ℤ} {f : FitOp}
    (h : mixFitStep voiceMs musicMs = .ok f) (v : ℚ) :
    mixWithVoicePlan voiceMs musicMs v =
      if v = 0 then .ok { fit := f, gain := .sentinelDb }
      else if v < 0 then .error .runtimeError
      else .ok { fit := f, gain := .db v } := by
  rw [mixWithVoicePlan, h]

/-- Counterexample to C3: `adjust_duration` never raises for a negative
target — a source of 5000 ms with target −1000 ms silently produces a Trim
result — and a zero-length source with a positive target surfaces as
`RuntimeError` (a wrapped `ZeroDivisionError`), not as
`InvalidArgument`/`ValueError`. -/
theorem c3_counterexample :
    adjustDurationFit 5000 (-1000) = .ok .trim ∧
    adjustDurationFit 0 3000 = .error .runtimeError ∧
    adjustDurationFit 5000 (-1000) ≠ .error .valueError ∧
    adjustDurationFit 0 3000 ≠ .error .valueError := by
  have h1 : adjustDurationFit 5000 (-1000) = .ok .trim := by
    rw [adjustDurationFit, if_pos (by norm_num)]
  have h2 : adjustDurationFit 0 3000 = .error .runtimeError := by
    rw [adjustDurationFit, if_neg (by norm_num), if_pos (by norm_num),
      if_pos rfl]
  refine ⟨h1, h2, ?_, ?_⟩
  · rw [h1]
    simp
  · rw [h2]
    simp

/-- C3 amended: the Duration Fitter performs no argument validation at
all.  With a nonnegative source (a pydub length always is), a negative
target yields an ordinary Trim result with no error; a zero source with a
positive target fails with `RuntimeError` (the wrapped
`ZeroDivisionError` of the loop computation); and no input whatsoever
produces an `InvalidArgument`/`ValueError`. -/
theorem c3_amended_no_validation (s t : ℤ) :
    (0 ≤ s → t < 0 → adjustDurationFit s t = .ok .trim) ∧
    (s = 0 → 0 < t → adjustDurationFit s t = .error .runtimeError) ∧
    adjustDurationFit s t ≠ .error .valueError := by
  refine ⟨?_, ?_, ?_⟩
  · intro hs ht
    rw [adjustDurationFit, if_pos (lt_of_lt_of_le ht hs)]
  · intro hs ht
    subst hs
    rw [adjustDurationFit, if_neg (by omega), if_pos ht, if_pos rfl]
  · rw [adjustDurationFit]
    split_ifs <;> simp

/-- Witness for the amended C3 at source 0: target −1000 trims without
error, target 3000 fails with `RuntimeError`. -/
theorem c3_amended_no_validation_witness :
    adjustDurationFit 0 (-1000) = .ok .trim ∧
    adjustDurationFit 0 3000 = .error .runtimeError ∧
    adjustDurationFit 0 3000 ≠ .error .valueError := by
  refine ⟨(c3_amended_no_validation 0 (-1000)).1 (by norm_num) (by norm_num),
    (c3_amended_no_validation 0 3000).2.1 rfl (by norm_num),
    (c3_amended_no_validation 0 3000).2.2⟩

/-- Counterexample to C9: `mix_with_voice` accepts a music volume of 1.5,
outside `[0.0, 1.0]`, and returns a mix plan (positive gain) instead of
failing with `InvalidArgument`. -/
theorem c9_counterexample :
    mixWithVoicePlan 3000 5000 (3 / 2) =
      .ok { fit := .trim, gain := .db (3 / 2) } ∧
    mixWithVoicePlan 3000 5000 (3 / 2) ≠ .error .valueError := by
  have hfit : mixFitStep 3000 5000 = .ok .trim := by
    rw [mixFitStep, if_pos (by norm_num)]
  have h := mixWithVoicePlan_ok hfit (3 / 2)
  rw [if_neg (by norm_num), if_neg (by norm_num)] at h
  refine ⟨h, ?_⟩
  rw [h]
  simp

/-- C9 amended: `mix_with_voice` performs no volume-range validation (the
`[0.0, 1.0]` check raising `ValueError` lives only in `adjust_volume`,
which `mix_with_voice` never calls).  A volume above 1 is accepted and
yields a plan with gain `20*log10(volume)`; a negative volume fails with
`RuntimeError` (the wrapped `math.log10` domain error); `mix_with_voice`
never raises `ValueError`.  `adjust_volume` alone rejects out-of-range
volumes with `ValueError`. -/
theorem c9_amended_no_mix_validation (voiceMs musicMs : ℤ) (v : ℚ) :
    (1 < v → 0 < musicMs →
      ∃ fit, mixWithVoicePlan voiceMs musicMs v = .ok { fit := fit, gain := .db v }) ∧
    (v < 0 → mixWithVoicePlan voiceMs musicMs v = .error .runtimeError) ∧
    mixWithVoicePlan voiceMs musicMs v ≠ .error .valueError ∧
    (v < 0 ∨ 1 < v → adjustVolumeGain v = .error .valueError) := by
  have hfit : ∀ e : PyErr, mixFitStep voiceMs musicMs = .error e →
      e = .runtimeError := by
    intro e h
    rw [mixFitStep] at h
    split_ifs at h
    exact (Except.error.inj h).symm
  have hfitok : 0 < musicMs → ∃ f, mixFitStep voiceMs musicMs = .ok f := by
    intro hm
    rw [mixFitStep]
    by_cases h1 : voiceMs < musicMs
    · exact ⟨.trim, by rw [if_pos h1]⟩
    · by_cases h2 : musicMs < voiceMs
      · exact ⟨.loop (Int.fdiv voiceMs musicMs + 1),
          by rw [if_neg h1, if_pos h2, if_neg hm.ne']⟩
      · exact ⟨.identity, by rw [if_neg h1, if_neg h2]⟩
  refine ⟨?_, ?_, ?_, ?_⟩
  · intro hv hm
    obtain ⟨f, hf⟩ := hfitok hm
    refine ⟨f, ?_⟩
    rw [mixWithVoicePlan_ok hf v,
      if_neg (by intro h0; rw [h0] at hv; exact absurd hv (by norm_num)),
      if_neg (by intro h0; linarith)]
  · intro hv
    cases hstep : mixFitStep voiceMs musicMs with
    | error e => rw [mixWithVoicePlan_error hstep v, hfit e hstep]
    | ok f => rw [mixWithVoicePlan_ok hstep v, if_neg hv.ne, if_pos hv]
  · cases hstep : mixFitStep voiceMs musicMs with
    | error e =>
      rw [mixWithVoicePlan_error hstep v, hfit e hstep]
      simp
    | ok f =>
      rw [mixWithVoicePlan_ok hstep v]
      split_ifs <;> simp
  · intro hv
    rw [adjustVolumeGain, if_pos ?_]
    intro ⟨h1, h2⟩
    rcases hv with hv | hv
    · exact absurd h1 (not_le.mpr hv)
    · exact absurd h2 (not_le.mpr hv)

/-- Witness for the amended C9 at voice 3000 ms, music 5000 ms, volume
1.5: the mix succeeds with gain `db 1.5`, while `adjust_volume` rejects
1.5 with `ValueError`. -/
theorem c9_amended_no_mix_validation_witness :
    (∃ fit, mixWithVoicePlan 3000 5000 (3 / 2) =
      .ok { fit := fit, gain := .db (3 / 2) }) ∧
    adjustVolumeGain (3 / 2) = .error .valueError := by
  obtain ⟨h1, -, -, h4⟩ := c9_amended_no_mix_validation 3000 5000 (3 / 2)
  exact ⟨h1 (by norm_num) (by norm_num), h4 (Or.inr (by norm_num))⟩

/-- Python's `int()` applied to a non-integral number: truncation toward
zero. -/
def pyTruncQ (q : ℚ) : ℤ :=
  if q < 0 then -(Int.floor (-q)) else Int.floor q

/-- The resize-then-center-crop geometry computed by
`VisualSelector.scale_image`. -/
structure CropGeom where
  resizeW : ℤ
  resizeH : ℤ
  cropLeft : ℤ
  cropTop : ℤ
deriving DecidableEq

/-- The geometry computation of `VisualSelector.scale_image`
(visual_selector.py lines 143-164): aspect ratios compared exactly (Python
float division embedded as rational division), resize dimensions via
`int(...)` truncation, centered crop via floor division `// 2`. -/
def scalePlan (origW origH targetW targetH : ℤ) : CropGeom :=
  let origAspect : ℚ := (origW : ℚ) / (origH : ℚ)
  let targetAspect : ℚ := (targetW : ℚ) / (targetH : ℚ)
  let rw : ℤ :=
    if targetAspect < origAspect then pyTruncQ ((targetH : ℚ) * origAspect)
    else targetW
  let rh : ℤ :=
    if targetAspect < origAspect then targetH
    else pyTruncQ ((targetW : ℚ) / origAspect)
  { resizeW := rw, resizeH := rh,
    cropLeft := Int.fdiv (rw - targetW) 2,
    cropTop := Int.fdiv (rh - targetH) 2 }

theorem pyTruncQ_of_nonneg {q : ℚ} (h : 0 ≤ q) : pyTruncQ q = Int.floor q := by
  rw [pyTruncQ, if_neg (not_lt.mpr h)]

theorem scalePlan_resizeW (ow oh tw th : ℤ) :
    (scalePlan ow oh tw th).resizeW =
      if (tw : ℚ) / (th : ℚ) < (ow : ℚ) / (oh : ℚ) then
        pyTruncQ ((th : ℚ) * ((ow : ℚ) / (oh : ℚ)))
      else tw := rfl

theorem scalePlan_resizeH (ow oh tw th : ℤ) :
    (scalePlan ow oh tw th).resizeH =
      if (tw : ℚ) / (th : ℚ) < (ow : ℚ) / (oh : ℚ) then th
      else pyTruncQ ((tw : ℚ) / ((ow : ℚ) / (oh : ℚ))) := rfl

theorem scalePlan_cropLeft (ow oh tw th : ℤ) :
    (scalePlan ow oh tw th).cropLeft =
      Int.fdiv ((scalePlan ow oh tw th).resizeW - tw) 2 := rfl

theorem scalePlan_cropTop (ow oh tw th : ℤ) :
    (scalePlan ow oh tw th).cropTop =
      Int.fdiv ((scalePlan ow oh tw th).resizeH - th) 2 := rfl

theorem fdiv_two_le_self {d : ℤ} (h : 0 ≤ d) : Int.fdiv d 2 ≤ d := by
  rw [Int.fdiv_eq_ediv d (by norm_num)]
  exact Int.ediv_le_self 2 h

/-- C4: for positive dimensions the computed resize covers the target box
and the centered crop box (floor-division centering) stays inside the
resized bounds. -/
theorem c4_cover_crop_containment (ow oh tw th : ℤ) (how : 0 < ow)
    (hoh : 0 < oh) (htw : 0 < tw) (hth : 0 < th) :
    tw ≤ (scalePlan ow oh tw th).resizeW ∧
    th ≤ (scalePlan ow oh tw th).resizeH ∧
    (scalePlan ow oh tw th).cropLeft =
      Int.fdiv ((scalePlan ow oh tw th).resizeW - tw) 2 ∧
    (scalePlan ow oh tw th).cropTop =
      Int.fdiv ((scalePlan ow oh tw th).resizeH - th) 2 ∧
    (scalePlan ow oh tw th).cropLeft + tw ≤ (scalePlan ow oh tw th).resizeW ∧
    (scalePlan ow oh tw th).cropTop + th ≤ (scalePlan ow oh tw th).resizeH := by
  have hthq : (0 : ℚ) < (th : ℚ) := by exact_mod_cast hth
  have hoaq : (0 : ℚ) < (ow : ℚ) / (oh : ℚ) := by
    apply div_pos <;> exact_mod_cast (by assumption)
  have hW : tw ≤ (scalePlan ow oh tw th).resizeW := by
    rw [scalePlan_resizeW]
    by_cases hc : (tw : ℚ) / (th : ℚ) < (ow : ℚ) / (oh : ℚ)
    · rw [if_pos hc, pyTruncQ_of_nonneg (by positivity)]
      rw [Int.le_floor]
      have : (tw : ℚ) < (th : ℚ) * ((ow : ℚ) / (oh : ℚ)) := by
        rw [div_lt_iff₀ hthq] at hc
        linarith [hc]
      exact this.le
    · rw [if_neg hc]
  have hH : th ≤ (scalePlan ow oh tw th).resizeH := by
    rw [scalePlan_resizeH]
    by_cases hc : (tw : ℚ) / (th : ℚ) < (ow : ℚ) / (oh : ℚ)
    · rw [if_pos hc]
    · rw [if_neg hc, pyTruncQ_of_nonneg (by positivity)]
      rw [Int.le_floor, le_div_iff₀ hoaq]
      rw [not_lt, le_div_iff₀ hthq] at hc
      rw [mul_comm]
      exact hc
  refine ⟨hW, hH, scalePlan_cropLeft ow oh tw th, scalePlan_cropTop ow oh tw th,
    ?_, ?_⟩
  · rw [scalePlan_cropLeft]
    have := fdiv_two_le_self (by omega : (0 : ℤ) ≤ (scalePlan ow oh tw th).resizeW - tw)
    omega
  · rw [scalePlan_cropTop]
    have := fdiv_two_le_self (by omega : (0 : ℤ) ≤ (scalePlan ow oh tw th).resizeH - th)
    omega

/-- Witness for C4 at the spec's scenario
`plan(1600, 900, 1920, 1080)`. -/
theorem c4_cover_crop_containment_witness :
    (0 : ℤ) < 1600 ∧ (0 : ℤ) < 900 ∧ (0 : ℤ) < 1920 ∧ (0 : ℤ) < 1080 ∧
    (1920 ≤ (scalePlan 1600 900 1920 1080).resizeW ∧
      1080 ≤ (scalePlan 1600 900 1920 1080).resizeH ∧
      (scalePlan 1600 900 1920 1080).cropLeft =
        Int.fdiv ((scalePlan 1600 900 1920 1080).resizeW - 1920) 2 ∧
      (scalePlan 1600 900 1920 1080).cropTop =
        Int.fdiv ((scalePlan 1600 900 1920 1080).resizeH - 1080) 2 ∧
      (scalePlan 1600 900 1920 1080).cropLeft + 1920 ≤
        (scalePlan 1600 900 1920 1080).resizeW ∧
      (scalePlan 1600 900 1920 1080).cropTop + 1080 ≤
        (scalePlan 1600 900 1920 1080).resizeH) :=
  ⟨by norm_num, by norm_num, by norm_num, by norm_num,
    c4_cover_crop_containment 1600 900 1920 1080 (by norm_num) (by norm_num)
      (by norm_num) (by norm_num)⟩

/-- Counterexample to C5: at original 7×4 and target 1×2 (source
relatively wider: 1/2 < 7/4), the code computes
`resizeWidth = int(2 * 1.75) = 3` by truncation, while the claimed
`round(targetHeight * origAspect) = round(3.5) = 4`. -/
theorem c5_counterexample :
    ((1 : ℚ) / (2 : ℚ) < (7 : ℚ) / (4 : ℚ)) ∧
    (scalePlan 7 4 1 2).resizeW = 3 ∧
    round ((2 : ℚ) * ((7 : ℚ) / (4 : ℚ))) = 4 := by
  refine ⟨by norm_num, ?_, ?_⟩
  · rw [scalePlan_resizeW, if_pos (by norm_num),
      pyTruncQ_of_nonneg (by norm_num)]
    rw [show (((2 : ℤ) : ℚ)) * (((7 : ℤ) : ℚ) / ((4 : ℤ) : ℚ)) = 7 / 2 by
      norm_num]
    norm_num
  · rw [round_eq]
    norm_num

/-- C5 amended: for positive dimensions the resize dimensions use `int()`
truncation (floor on these nonnegative values), not rounding: if
`origAspect > targetAspect` then `resizeHeight = targetHeight` and
`resizeWidth = floor(targetHeight * origAspect)`; otherwise
`resizeWidth = targetWidth` and
`resizeHeight = floor(targetWidth / origAspect)` — equality with the
target on the limiting dimension in both cases. -/
theorem c5_amended_trunc_resize (ow oh tw th : ℤ) (how : 0 < ow)
    (hoh : 0 < oh) (htw : 0 < tw) (hth : 0 < th) :
    ((tw : ℚ) / (th : ℚ) < (ow : ℚ) / (oh : ℚ) →
      (scalePlan ow oh tw th).resizeH = th ∧
      (scalePlan ow oh tw th).resizeW =
        Int.floor ((th : ℚ) * ((ow : ℚ) / (oh : ℚ)))) ∧
    ((ow : ℚ) / (oh : ℚ) ≤ (tw : ℚ) / (th : ℚ) →
      (scalePlan ow oh tw th).resizeW = tw ∧
      (scalePlan ow oh tw th).resizeH =
        Int.floor ((tw : ℚ) / ((ow : ℚ) / (oh : ℚ)))) := by
  constructor
  · intro hc
    rw [scalePlan_resizeH, scalePlan_resizeW, if_pos hc, if_pos hc,
      pyTruncQ_of_nonneg (by positivity)]
    exact ⟨rfl, rfl⟩
  · intro hc
    rw [scalePlan_resizeH, scalePlan_resizeW, if_neg (not_lt.mpr hc),
      if_neg (not_lt.mpr hc), pyTruncQ_of_nonneg (by positivity)]
    exact ⟨rfl, rfl⟩

/-- Witness for the amended C5 at the spec's scenario
`plan(1600, 900, 1920, 1080)` (equal aspects, so the second branch):
`resize = (1920, 1080)`. -/
theorem c5_amended_trunc_resize_witness :
    ((1600 : ℤ) : ℚ) / ((900 : ℤ) : ℚ) ≤ ((1920 : ℤ) : ℚ) / ((1080 : ℤ) : ℚ) ∧
    (scalePlan 1600 900 1920 1080).resizeW = 1920 ∧
    (scalePlan 1600 900 1920 1080).resizeH = 1080 := by
  have hle : ((1600 : ℤ) : ℚ) / ((900 : ℤ) : ℚ) ≤
      ((1920 : ℤ) : ℚ) / ((1080 : ℤ) : ℚ) := by norm_num
  obtain ⟨h1, h2⟩ := (c5_amended_trunc_resize 1600 900 1920 1080 (by norm_num)
    (by norm_num) (by norm_num) (by norm_num)).2 hle
  refine ⟨hle, h1, ?_⟩
  rw [h2]
  rw [show ((1920 : ℤ) : ℚ) / (((1600 : ℤ) : ℚ) / ((900 : ℤ) : ℚ)) =
    ((1080 : ℤ) : ℚ) by norm_num]
  exact Int.floor_intCast 1080

end Text2Video
